import Mathlib

/-!
Shallow embedding of the to-do list application in `src/index.js`.

The application is a React component.  Its state-management core consists of:
* the `useState` lazy initializer (lines 12-17), which reads the raw string
  stored under the key `"todos"` in `localStorage` and runs `JSON.parse` on it
  when the string is truthy (non-null and non-empty), else starts from `[]`;
* a `useEffect` (lines 22-25) that runs `localStorage.setItem('todos',
  JSON.stringify(todos))` after every committed change of `todos`;
* `handleAddTodo` (lines 28-43), `handleToggleCompleted` (lines 46-52) and
  `handleDeleteTodo` (lines 55-57).

JavaScript machine integers do not occur (ids are `Date.now()` millisecond
timestamps, far below 2^53, represented here as `Nat`); `JSON.parse` /
`JSON.stringify` are modelled by an executable printer and parser over
`List Char` given below.  A thrown JavaScript exception is modelled as
`Except.error`.
-/

namespace TodoApp

/-- One to-do item, mirroring the object literal built at lines 33-37 of
`src/index.js`: `{ id: Date.now(), text: inputValue.trim(), completed: false }`. -/
structure Item where
  id : Nat
  text : String
  completed : Bool
deriving DecidableEq, Repr

/-- The white-space set of JavaScript `String.prototype.trim` (ECMA-262
`TrimString`): TAB, LF, VT, FF, CR, SP, NBSP, the Unicode space separators,
LS, PS and the BOM. -/
def jsWhitespace (c : Char) : Bool :=
  ([9, 10, 11, 12, 13, 32, 0xA0, 0x1680, 0x2000, 0x2001, 0x2002, 0x2003,
    0x2004, 0x2005, 0x2006, 0x2007, 0x2008, 0x2009, 0x200A, 0x2028, 0x2029,
    0x202F, 0x205F, 0x3000, 0xFEFF] : List Nat).contains c.toNat

/-- Model of JavaScript `inputValue.trim()` (lines 31 and 35): drop leading
and trailing white space. -/
def jsTrim (s : String) : String :=
  String.mk (((s.data.dropWhile jsWhitespace).reverse.dropWhile jsWhitespace).reverse)

/-- Model of `handleAddTodo` (lines 28-43).  The component state it touches is
the pair `(todos, inputValue)`.  The JavaScript tests `if (inputValue.trim())`,
i.e. truthiness of the trimmed string, which for strings means non-emptiness;
on success it appends `{ id: Date.now(), text: inputValue.trim(),
completed: false }` and clears the input field.  `now` is the value returned
by `Date.now()` at this call. -/
def handleAddTodo (now : Nat) (st : List Item × String) : List Item × String :=
  if jsTrim st.2 = "" then st
  else (st.1 ++ [⟨now, jsTrim st.2, false⟩], "")

/-- Model of `handleToggleCompleted` (lines 46-52):
`todos.map(todo => todo.id === id ? Object-spread-with-flipped-completed : todo)`. -/
def handleToggleCompleted (id : Nat) (todos : List Item) : List Item :=
  todos.map fun todo =>
    if todo.id = id then { todo with completed := !todo.completed } else todo

/-- Model of `handleDeleteTodo` (lines 55-57):
`todos.filter(todo => todo.id !== id)`. -/
def handleDeleteTodo (id : Nat) (todos : List Item) : List Item :=
  todos.filter fun todo => todo.id != id

/-- One user interaction that mutates the collection: submitting the add form
with the field holding `text` while `Date.now()` returns `now`, tapping an
item (toggle), or tapping a delete button. -/
inductive Op where
  | add (now : Nat) (text : String)
  | toggle (id : Nat)
  | remove (id : Nat)
deriving DecidableEq, Repr

/-- Effect of one operation on the in-memory collection. -/
def applyOp (todos : List Item) : Op → List Item
  | .add now text => (handleAddTodo now (todos, text)).1
  | .toggle id => handleToggleCompleted id todos
  | .remove id => handleDeleteTodo id todos

/-- The collection reached from the empty collection by a sequence of
operations (every reachable state of the store). -/
def run (ops : List Op) : List Item :=
  ops.foldl applyOp []

/-- A sequence of add-form submissions, each given as the pair
`(Date.now() value, raw input text)`. -/
def addAll (calls : List (Nat × String)) (todos : List Item) : List Item :=
  calls.foldl (fun ts p => (handleAddTodo p.1 (ts, p.2)).1) todos

/-!
Model of JSON values and of `JSON.stringify` / `JSON.parse` as used by the
persistence layer (lines 15-16 and 24 of `src/index.js`).

Model restrictions, stated once here: JSON numbers are modelled as integers
(no fraction or exponent part — the only numbers the application ever writes
are `Date.now()` integer timestamps); strings are sequences of Unicode scalar
values, so an escape `\uXXXX` denoting a lone UTF-16 surrogate is rejected by
the modelled parser; an object is modelled as its ordered field list.
-/

/-- A JSON value. -/
inductive Json where
  | null : Json
  | bool (b : Bool) : Json
  | num (n : Int) : Json
  | str (s : String) : Json
  | arr (elems : List Json) : Json
  | obj (fields : List (String × Json)) : Json
deriving Repr

/-- A thrown JavaScript exception relevant to this application:
`SyntaxError` from `JSON.parse`, or the storage-quota `DOMException`
from `localStorage.setItem`. -/
inductive JsError where
  | syntaxError : JsError
  | quotaExceeded : JsError
deriving DecidableEq, Repr

/-- Decimal digit character, `'0' + d`. -/
def digitChar (d : Nat) : Char := Char.ofNat (48 + d)

/-- Big-endian decimal digits of `n`, with recursion fuel. -/
def natCharsAux : Nat → Nat → List Char
  | 0, _ => []
  | fuel + 1, n =>
    if n < 10 then [digitChar n]
    else natCharsAux fuel (n / 10) ++ [digitChar (n % 10)]

/-- Big-endian decimal digits of `n` (what `JSON.stringify` prints for a
non-negative integer). -/
def natChars (n : Nat) : List Char := natCharsAux (n + 1) n

/-- What `JSON.stringify` prints for an integer. -/
def printInt (n : Int) : List Char :=
  if n < 0 then '-' :: natChars n.natAbs else natChars n.toNat

/-- Lower-case hexadecimal digit character. -/
def hexDig (n : Nat) : Char :=
  if n < 10 then Char.ofNat (48 + n) else Char.ofNat (87 + n)

/-- How `JSON.stringify` escapes one character inside a string literal:
`"` and `\` get a backslash, the five control characters with short escapes
use them, any other control character becomes `\u00xx`, and every other
character is emitted verbatim. -/
def escChar (c : Char) : List Char :=
  if c = '"' then ['\\', '"']
  else if c = '\\' then ['\\', '\\']
  else if c = '\x08' then ['\\', 'b']
  else if c = '\t' then ['\\', 't']
  else if c = '\n' then ['\\', 'n']
  else if c = '\x0c' then ['\\', 'f']
  else if c = '\r' then ['\\', 'r']
  else if c.toNat < 32 then
    ['\\', 'u', '0', '0', hexDig (c.toNat / 16), hexDig (c.toNat % 16)]
  else [c]

/-- `JSON.stringify` escaping of a whole string body. -/
def escapeChars : List Char → List Char
  | [] => []
  | c :: rest => escChar c ++ escapeChars rest

mutual

/-- Characters printed by `JSON.stringify` for a JSON value (no white space,
insertion-ordered object fields — exactly the JavaScript behaviour with no
`space` argument). -/
def printJson : Json → List Char
  | .null => "null".data
  | .bool true => "true".data
  | .bool false => "false".data
  | .num n => printInt n
  | .str s => '"' :: (escapeChars s.data ++ ['"'])
  | .arr l => '[' :: (printElemsJ l ++ [']'])
  | .obj fs => '\x7b' :: (printFieldsJ fs ++ ['\x7d'])

/-- Comma-separated element list of an array. -/
def printElemsJ : List Json → List Char
  | [] => []
  | h :: t => printJson h ++ printTailJ t

/-- Continuation of an element list: each further element preceded by `,`. -/
def printTailJ : List Json → List Char
  | [] => []
  | h :: t => ',' :: (printJson h ++ printTailJ t)

/-- Comma-separated field list of an object. -/
def printFieldsJ : List (String × Json) → List Char
  | [] => []
  | (k, v) :: t => '"' :: (escapeChars k.data ++ '"' :: ':' :: printJson v) ++ printFTailJ t

/-- Continuation of a field list: each further field preceded by `,`. -/
def printFTailJ : List (String × Json) → List Char
  | [] => []
  | (k, v) :: t =>
    ',' :: ('"' :: (escapeChars k.data ++ '"' :: ':' :: printJson v) ++ printFTailJ t)

end

/-- Model of `JSON.stringify`. -/
def stringify (j : Json) : String := String.mk (printJson j)

/-- The white space the JSON grammar allows between tokens
(space, TAB, LF, CR). -/
def jsonWs (c : Char) : Bool := c = ' ' || c = '\t' || c = '\n' || c = '\r'

/-- Skip JSON inter-token white space. -/
def skipWs (cs : List Char) : List Char := cs.dropWhile jsonWs

/-- Is `c` a decimal digit? -/
def isDigitChar (c : Char) : Bool := 48 ≤ c.toNat && c.toNat ≤ 57

/-- Numeric value of a decimal digit character. -/
def digitVal (c : Char) : Nat := c.toNat - 48

/-- Is `c` a hexadecimal digit? -/
def isHexChar (c : Char) : Bool :=
  isDigitChar c || (97 ≤ c.toNat && c.toNat ≤ 102) || (65 ≤ c.toNat && c.toNat ≤ 70)

/-- Numeric value of a hexadecimal digit character. -/
def hexVal (c : Char) : Nat :=
  if c.toNat ≤ 57 then c.toNat - 48
  else if c.toNat ≤ 70 then c.toNat - 55
  else c.toNat - 87

/-- Consume a maximal run of decimal digits, folding them into `acc`. -/
def parseDigitsAcc (acc : Nat) : List Char → Nat × List Char
  | [] => (acc, [])
  | c :: rest =>
    if isDigitChar c then parseDigitsAcc (acc * 10 + digitVal c) rest
    else (acc, c :: rest)

/-- The JSON integer grammar after an optional sign: `0` not followed by a
digit, or a nonzero digit followed by any digits (`JSON.parse` rejects
leading zeros). -/
def parseNatNum : List Char → Option (Nat × List Char)
  | [] => none
  | c :: rest =>
    if c = '0' then
      match rest with
      | [] => some (0, [])
      | c2 :: _ => if isDigitChar c2 then none else some (0, rest)
    else if isDigitChar c then some (parseDigitsAcc (digitVal c) rest)
    else none

/-- A JSON number token (integers only, see the model restrictions above). -/
def parseNum : List Char → Option (Json × List Char)
  | [] => none
  | c :: rest =>
    if c = '-' then
      (parseNatNum rest).map fun p => (.num (-(p.1 : Int)), p.2)
    else
      (parseNatNum (c :: rest)).map fun p => (.num ((p.1 : Int)), p.2)

/-- The character denoted by a single-character string escape, if legal. -/
def unescape (e : Char) : Option Char :=
  if e = '"' then some '"'
  else if e = '\\' then some '\\'
  else if e = '/' then some '/'
  else if e = 'b' then some '\x08'
  else if e = 't' then some '\t'
  else if e = 'n' then some '\n'
  else if e = 'f' then some '\x0c'
  else if e = 'r' then some '\r'
  else none

/-- Body of a JSON string literal, after the opening quote: characters up to
the closing quote, decoding escapes; a raw control character or an
unterminated literal is an error, as in `JSON.parse`. -/
def parseStrChars : List Char → Option (List Char × List Char)
  | [] => none
  | c :: rest =>
    if c = '"' then some ([], rest)
    else if c = '\\' then
      match rest with
      | [] => none
      | e :: rest2 =>
        if e = 'u' then
          match rest2 with
          | h1 :: h2 :: h3 :: h4 :: rest3 =>
            if isHexChar h1 && isHexChar h2 && isHexChar h3 && isHexChar h4 then
              let v := hexVal h1 * 4096 + hexVal h2 * 256 + hexVal h3 * 16 + hexVal h4
              if v < 0xD800 then
                (parseStrChars rest3).map fun p => (Char.ofNat v :: p.1, p.2)
              else if 0xE000 ≤ v then
                (parseStrChars rest3).map fun p => (Char.ofNat v :: p.1, p.2)
              else none
            else none
          | _ => none
        else
          match unescape e with
          | some c2 => (parseStrChars rest2).map fun p => (c2 :: p.1, p.2)
          | none => none
    else if c.toNat < 32 then none
    else (parseStrChars rest).map fun p => (c :: p.1, p.2)

mutual

/-- One JSON value, with recursion fuel: leading white space, then a token
dispatched on its first character.  Models `JSON.parse` up to the stated
model restrictions. -/
def parseVal : Nat → List Char → Option (Json × List Char)
  | 0, _ => none
  | fuel + 1, cs =>
    match skipWs cs with
    | [] => none
    | c :: r =>
      if c = 'n' then
        match r with
        | 'u' :: 'l' :: 'l' :: r2 => some (.null, r2)
        | _ => none
      else if c = 't' then
        match r with
        | 'r' :: 'u' :: 'e' :: r2 => some (.bool true, r2)
        | _ => none
      else if c = 'f' then
        match r with
        | 'a' :: 'l' :: 's' :: 'e' :: r2 => some (.bool false, r2)
        | _ => none
      else if c = '"' then
        (parseStrChars r).map fun p => (.str (String.mk p.1), p.2)
      else if c = '[' then
        (parseElems fuel r).map fun p => (.arr p.1, p.2)
      else if c = '\x7b' then
        (parseFields fuel r).map fun p => (.obj p.1, p.2)
      else parseNum (c :: r)

/-- Array elements after `[`: either `]` at once, or a first element followed
by a `parseElemsTail` continuation. -/
def parseElems : Nat → List Char → Option (List Json × List Char)
  | fuel, cs =>
    match skipWs cs with
    | [] => none
    | c :: r =>
      if c = ']' then some ([], r)
      else
        match fuel with
        | 0 => none
        | f + 1 =>
          (parseVal f (c :: r)).bind fun p =>
            (parseElemsTail f p.2).map fun q => (p.1 :: q.1, q.2)

/-- Array continuation: `]` ends the array, `,` is followed by one more
element and a further continuation. -/
def parseElemsTail : Nat → List Char → Option (List Json × List Char)
  | fuel, cs =>
    match skipWs cs with
    | [] => none
    | c :: r =>
      if c = ']' then some ([], r)
      else if c = ',' then
        match fuel with
        | 0 => none
        | f + 1 =>
          (parseVal f r).bind fun p =>
            (parseElemsTail f p.2).map fun q => (p.1 :: q.1, q.2)
      else none

/-- Object fields after the opening brace: either a closing brace at once, or
a first `"key" : value` field followed by a `parseFieldsTail` continuation. -/
def parseFields : Nat → List Char → Option (List (String × Json) × List Char)
  | fuel, cs =>
    match skipWs cs with
    | [] => none
    | c :: r =>
      if c = '\x7d' then some ([], r)
      else if c = '"' then
        match fuel with
        | 0 => none
        | f + 1 =>
          (parseStrChars r).bind fun pk =>
            match skipWs pk.2 with
            | ':' :: r3 =>
              (parseVal f r3).bind fun pv =>
                (parseFieldsTail f pv.2).map fun q =>
                  ((String.mk pk.1, pv.1) :: q.1, q.2)
            | _ => none
      else none

/-- Object continuation: the closing brace ends the object, `,` is followed
by one more `"key" : value` field and a further continuation. -/
def parseFieldsTail : Nat → List Char → Option (List (String × Json) × List Char)
  | fuel, cs =>
    match skipWs cs with
    | [] => none
    | c :: r =>
      if c = '\x7d' then some ([], r)
      else if c = ',' then
        match fuel with
        | 0 => none
        | f + 1 =>
          match skipWs r with
          | '"' :: r1 =>
            (parseStrChars r1).bind fun pk =>
              match skipWs pk.2 with
              | ':' :: r3 =>
                (parseVal f r3).bind fun pv =>
                  (parseFieldsTail f pv.2).map fun q =>
                    ((String.mk pk.1, pv.1) :: q.1, q.2)
              | _ => none
          | _ => none
      else none

end

/-- Model of `JSON.parse`: parse one value and require that only white space
follows; `none` models a thrown `SyntaxError`.  The fuel `s.length + 1` never
runs out, because the parser spends fuel only when it enters an array or
object or one of their elements, each of which consumes at least one input
character. -/
def jsonParse (s : String) : Option Json :=
  match parseVal (s.length + 1) s.data with
  | some (v, rest) => if (skipWs rest).isEmpty then some v else none
  | none => none

/-- The JSON value `JSON.stringify` sees for one item: an object whose fields
appear in the insertion order of the literal at lines 33-37
(`id`, `text`, `completed`). -/
def encodeItem (t : Item) : Json :=
  .obj [("id", .num (t.id : Int)), ("text", .str t.text), ("completed", .bool t.completed)]

/-- The JSON value `JSON.stringify` sees for the whole collection. -/
def encodeTodos (todos : List Item) : Json :=
  .arr (todos.map encodeItem)

/-- The string the `useEffect` at lines 23-25 writes under the key `"todos"`:
`JSON.stringify(todos)`. -/
def saveTodos (todos : List Item) : String :=
  stringify (encodeTodos todos)

/-- Model of the `useState` lazy initializer at lines 12-17.  `saved` is what
`localStorage.getItem('todos')` returns (`none` for `null`).  The conditional
`savedTodos ? JSON.parse(savedTodos) : []` tests JavaScript truthiness, so
`null` and the empty string both yield `[]`; otherwise `JSON.parse` runs with
no surrounding try/catch, so a failure is a thrown `SyntaxError`, modelled as
`Except.error`. -/
def appInit (saved : Option String) : Except JsError Json :=
  match saved with
  | none => Except.ok (Json.arr [])
  | some s =>
    if s = "" then Except.ok (Json.arr [])
    else
      match jsonParse s with
      | some v => Except.ok v
      | none => Except.error JsError.syntaxError

/-- Model of one committed mutation together with the persistence effect at
lines 22-25: React first commits the new `todos` state (first component),
then the effect runs `localStorage.setItem('todos', JSON.stringify(todos))`
with no try/catch, so a storage failure (injected here as `writeFails`)
escapes as an uncaught exception (`Except.error`), while a success stores the
new encoding (`Except.ok`).  The committed in-memory state is produced before
the effect runs and is not influenced by its outcome. -/
def stepWithPersist (f : List Item → List Item) (todos : List Item)
    (writeFails : Bool) : List Item × Except JsError String :=
  (f todos,
    if writeFails then Except.error JsError.quotaExceeded
    else Except.ok (saveTodos (f todos)))

/-- Does the character sequence not begin with a decimal digit?  Number
tokens are the only greedy tokens of the JSON grammar, so this is the
delimiter condition needed to parse a printed value back off the front of a
longer text. -/
def headNotDigit : List Char → Bool
  | [] => true
  | c :: _ => !isDigitChar c

/-!
Theorems.  First general-purpose helper lemmas about characters, digit
printing and string escaping, then the five-way round-trip lemma for the
printer and parser, then one theorem (plus witness or counterexample) per
claim.
-/

theorem char_ne_of_toNat {a b : Char} (h : a.toNat ≠ b.toNat) : a ≠ b :=
  fun he => h (congrArg Char.toNat he)

theorem isDigitChar_bounds {c : Char} (h : isDigitChar c = true) :
    48 ≤ c.toNat ∧ c.toNat ≤ 57 := by
  simpa [isDigitChar] using h

theorem skipWs_cons {c : Char} {cs : List Char} (h : jsonWs c = false) :
    skipWs (c :: cs) = c :: cs := by
  simp [skipWs, List.dropWhile, h]

theorem toNat_ofNat_lt {n : Nat} (h : n < 55296) : (Char.ofNat n).toNat = n := by
  have hv : Nat.isValidChar n := Or.inl h
  simp [Char.ofNat, hv, Char.ofNatAux, Char.toNat, UInt32.toNat]

theorem digitChar_toNat {d : Nat} (h : d < 10) : (digitChar d).toNat = 48 + d :=
  toNat_ofNat_lt (by omega)

theorem isDigitChar_digitChar {d : Nat} (h : d < 10) :
    isDigitChar (digitChar d) = true := by
  simp only [isDigitChar, digitChar_toNat h]
  simp only [Bool.and_eq_true, decide_eq_true_eq]
  omega

theorem digitVal_digitChar {d : Nat} (h : d < 10) : digitVal (digitChar d) = d := by
  simp [digitVal, digitChar_toNat h]

theorem natCharsAux_fuel {f1 f2 n : Nat} (h1 : n < f1) (h2 : n < f2) :
    natCharsAux f1 n = natCharsAux f2 n := by
  induction f1 generalizing f2 n with
  | zero => omega
  | succ f ih =>
    cases f2 with
    | zero => omega
    | succ g =>
      simp only [natCharsAux]
      by_cases h : n < 10
      · simp [h]
      · simp only [if_neg h]
        congr 1
        exact ih (show n / 10 < f by omega) (show n / 10 < g by omega)

theorem natChars_eq (n : Nat) : natChars n =
    if n < 10 then [digitChar n]
    else natChars (n / 10) ++ [digitChar (n % 10)] := by
  unfold natChars
  simp only [natCharsAux]
  by_cases h : n < 10
  · simp [h]
  · simp only [if_neg h]
    congr 1
    exact natCharsAux_fuel (show n / 10 < n by omega) (show n / 10 < n / 10 + 1 by omega)

theorem natChars_all_digits (n : Nat) : ∀ c ∈ natChars n, isDigitChar c = true := by
  induction n using Nat.strong_induction_on with
  | _ n ih =>
    rw [natChars_eq n]
    by_cases h : n < 10
    · simp only [if_pos h, List.mem_singleton]
      rintro c rfl
      exact isDigitChar_digitChar h
    · simp only [if_neg h, List.mem_append, List.mem_singleton]
      rintro c (hc | rfl)
      · exact ih (n / 10) (by omega) c hc
      · exact isDigitChar_digitChar (by omega)

theorem natChars_ne_nil (n : Nat) : natChars n ≠ [] := by
  rw [natChars_eq n]
  by_cases h : n < 10 <;> simp [h]

theorem natChars_head_ne_zero (n : Nat) : 1 ≤ n →
    ∀ c cs, natChars n = c :: cs → c ≠ '0' := by
  induction n using Nat.strong_induction_on with
  | _ n ih =>
    intro hpos c cs hcc
    rw [natChars_eq n] at hcc
    by_cases h : n < 10
    · rw [if_pos h] at hcc
      injection hcc with hc _
      apply char_ne_of_toNat
      rw [← hc, digitChar_toNat h]
      have h0 : ('0').toNat = 48 := rfl
      omega
    · rw [if_neg h] at hcc
      obtain ⟨c', cs', heq⟩ := List.exists_cons_of_ne_nil (natChars_ne_nil (n / 10))
      rw [heq, List.cons_append] at hcc
      injection hcc with hc _
      exact hc ▸ ih (n / 10) (by omega) (by omega) c' cs' heq

theorem natChars_val (n : Nat) :
    (natChars n).foldl (fun a c => a * 10 + digitVal c) 0 = n := by
  induction n using Nat.strong_induction_on with
  | _ n ih =>
    rw [natChars_eq n]
    by_cases h : n < 10
    · simp only [if_pos h, List.foldl_cons, List.foldl_nil]
      rw [digitVal_digitChar h]
      omega
    · simp only [if_neg h, List.foldl_append, List.foldl_cons, List.foldl_nil]
      rw [ih (n / 10) (by omega), digitVal_digitChar (show n % 10 < 10 by omega)]
      omega

theorem parseDigitsAcc_append (ds : List Char) :
    ∀ acc (rest : List Char), (∀ c ∈ ds, isDigitChar c = true) →
      headNotDigit rest = true →
      parseDigitsAcc acc (ds ++ rest) =
        (ds.foldl (fun a c => a * 10 + digitVal c) acc, rest) := by
  induction ds with
  | nil =>
    intro acc rest _ hr
    simp only [List.nil_append, List.foldl_nil]
    cases rest with
    | nil => rfl
    | cons c cs =>
      have hc : isDigitChar c = false := by
        simpa [headNotDigit] using hr
      simp [parseDigitsAcc, hc]
  | cons c cs ih =>
    intro acc rest hd hr
    simp only [List.cons_append, List.foldl_cons]
    rw [show parseDigitsAcc acc (c :: (cs ++ rest)) =
        parseDigitsAcc (acc * 10 + digitVal c) (cs ++ rest) from by
      simp [parseDigitsAcc, hd c (List.mem_cons_self c cs)]]
    exact ih _ rest (fun x hx => hd x (List.mem_cons_of_mem c hx)) hr

theorem parseNatNum_natChars (n : Nat) (rest : List Char)
    (hr : headNotDigit rest = true) :
    parseNatNum (natChars n ++ rest) = some (n, rest) := by
  rcases Nat.eq_zero_or_pos n with rfl | hpos
  · rw [show natChars 0 = ['0'] from by decide, List.cons_append, List.nil_append]
    cases rest with
    | nil => rfl
    | cons c2 cs =>
      have hc : isDigitChar c2 = false := by simpa [headNotDigit] using hr
      simp [parseNatNum, hc]
  · obtain ⟨c, cs, heq⟩ := List.exists_cons_of_ne_nil (natChars_ne_nil n)
    have hdig : isDigitChar c = true :=
      natChars_all_digits n c (heq ▸ List.mem_cons_self c cs)
    have hne0 : c ≠ '0' := natChars_head_ne_zero n hpos c cs heq
    rw [heq, List.cons_append]
    rw [show parseNatNum (c :: (cs ++ rest)) =
        some (parseDigitsAcc (digitVal c) (cs ++ rest)) from by
      simp [parseNatNum, hne0, hdig]]
    rw [parseDigitsAcc_append cs (digitVal c) rest
      (fun x hx => natChars_all_digits n x (heq ▸ List.mem_cons_of_mem c hx)) hr]
    have hv := natChars_val n
    rw [heq, List.foldl_cons] at hv
    simp only [Nat.zero_mul, Nat.zero_add] at hv
    rw [hv]

theorem parseNum_printInt (n : Int) (rest : List Char)
    (hr : headNotDigit rest = true) :
    parseNum (printInt n ++ rest) = some (Json.num n, rest) := by
  by_cases hneg : n < 0
  · simp only [printInt, if_pos hneg, List.cons_append]
    rw [show parseNum ('-' :: (natChars n.natAbs ++ rest)) =
        (parseNatNum (natChars n.natAbs ++ rest)).map
          (fun p => (Json.num (-(p.1 : Int)), p.2)) from by
      simp [parseNum]]
    rw [parseNatNum_natChars n.natAbs rest hr]
    simp only [Option.map_some']
    have : -((n.natAbs : Int)) = n := by omega
    rw [this]
  · simp only [printInt, if_neg hneg]
    obtain ⟨c, cs, heq⟩ := List.exists_cons_of_ne_nil (natChars_ne_nil n.toNat)
    have hdig : isDigitChar c = true :=
      natChars_all_digits n.toNat c (heq ▸ List.mem_cons_self c cs)
    have hbound := isDigitChar_bounds hdig
    have hnotminus : c ≠ '-' := by
      apply char_ne_of_toNat
      have : ('-').toNat = 45 := rfl
      omega
    rw [heq, List.cons_append]
    rw [show parseNum (c :: (cs ++ rest)) =
        (parseNatNum (c :: (cs ++ rest))).map
          (fun p => (Json.num ((p.1 : Int)), p.2)) from by
      simp [parseNum, hnotminus]]
    rw [← List.cons_append, ← heq, parseNatNum_natChars n.toNat rest hr]
    simp only [Option.map_some']
    have : ((n.toNat : Int)) = n := by omega
    rw [this]

theorem hexVal_hexDig_lt : ∀ m, m < 16 → hexVal (hexDig m) = m ∧ isHexChar (hexDig m) = true := by
  decide

theorem parseStrChars_escape (cs : List Char) :
    ∀ rest, parseStrChars (escapeChars cs ++ '"' :: rest) = some (cs, rest) := by
  induction cs with
  | nil =>
    intro rest
    simp only [escapeChars, List.nil_append]
    rw [parseStrChars.eq_def]
    simp
  | cons c cs ih =>
    intro rest
    simp only [escapeChars, List.append_assoc]
    by_cases h1 : c = '"'
    · subst h1
      rw [show escChar '"' = ['\\', '"'] from rfl]
      simp only [List.cons_append, List.nil_append]
      rw [parseStrChars.eq_def]
      simp [unescape, ih]
    by_cases h2 : c = '\\'
    · subst h2
      rw [show escChar '\\' = ['\\', '\\'] from rfl]
      simp only [List.cons_append, List.nil_append]
      rw [parseStrChars.eq_def]
      simp [unescape, ih]
    by_cases h3 : c = '\x08'
    · subst h3
      rw [show escChar '\x08' = ['\\', 'b'] from rfl]
      simp only [List.cons_append, List.nil_append]
      rw [parseStrChars.eq_def]
      simp [unescape, ih]
    by_cases h4 : c = '\t'
    · subst h4
      rw [show escChar '\t' = ['\\', 't'] from rfl]
      simp only [List.cons_append, List.nil_append]
      rw [parseStrChars.eq_def]
      simp [unescape, ih]
    by_cases h5 : c = '\n'
    · subst h5
      rw [show escChar '\n' = ['\\', 'n'] from rfl]
      simp only [List.cons_append, List.nil_append]
      rw [parseStrChars.eq_def]
      simp [unescape, ih]
    by_cases h6 : c = '\x0c'
    · subst h6
      rw [show escChar '\x0c' = ['\\', 'f'] from rfl]
      simp only [List.cons_append, List.nil_append]
      rw [parseStrChars.eq_def]
      simp [unescape, ih]
    by_cases h7 : c = '\r'
    · subst h7
      rw [show escChar '\r' = ['\\', 'r'] from rfl]
      simp only [List.cons_append, List.nil_append]
      rw [parseStrChars.eq_def]
      simp [unescape, ih]
    by_cases h8 : c.toNat < 32
    · rw [show escChar c =
          ['\\', 'u', '0', '0', hexDig (c.toNat / 16), hexDig (c.toNat % 16)] from by
        simp [escChar, h1, h2, h3, h4, h5, h6, h7, h8]]
      simp only [List.cons_append, List.nil_append]
      have hx1 := hexVal_hexDig_lt (c.toNat / 16) (by omega)
      have hx2 := hexVal_hexDig_lt (c.toNat % 16) (by omega)
      have harith : hexVal '0' * 4096 + hexVal '0' * 256 +
          c.toNat / 16 * 16 + c.toNat % 16 = c.toNat := by
        rw [show hexVal '0' = 0 from rfl]
        omega
      have hlt : c.toNat < 55296 := by omega
      rw [parseStrChars.eq_def]
      simp [show isHexChar '0' = true from rfl, hx1.1, hx1.2, hx2.1, hx2.2,
        harith, hlt, ih]
    · rw [show escChar c = [c] from by
        simp [escChar, h1, h2, h3, h4, h5, h6, h7, h8]]
      simp only [List.cons_append, List.nil_append]
      rw [parseStrChars.eq_def]
      simp [h1, h2, h8, ih]

theorem jsonWs_false (c : Char) (h32 : c.toNat ≠ 32) (h9 : c.toNat ≠ 9)
    (h10 : c.toNat ≠ 10) (h13 : c.toNat ≠ 13) : jsonWs c = false := by
  by_contra hcon
  rw [Bool.not_eq_false] at hcon
  simp only [jsonWs, Bool.or_eq_true, decide_eq_true_eq] at hcon
  rcases hcon with ((rfl | rfl) | rfl) | rfl
  · exact h32 rfl
  · exact h9 rfl
  · exact h10 rfl
  · exact h13 rfl

theorem digit_facts {c : Char} (h : isDigitChar c = true) :
    jsonWs c = false ∧ c ≠ ']' ∧ c ≠ ',' ∧ c ≠ '\x7d' ∧ c ≠ 'n' ∧ c ≠ 't' ∧
      c ≠ 'f' ∧ c ≠ '"' ∧ c ≠ '[' ∧ c ≠ '\x7b' ∧ c ≠ '-' := by
  have hb := isDigitChar_bounds h
  refine ⟨jsonWs_false c (by omega) (by omega) (by omega) (by omega),
    char_ne_of_toNat (by rw [show (']').toNat = 93 from rfl]; omega),
    char_ne_of_toNat (by rw [show (',').toNat = 44 from rfl]; omega),
    char_ne_of_toNat (by rw [show ('\x7d').toNat = 125 from rfl]; omega),
    char_ne_of_toNat (by rw [show ('n').toNat = 110 from rfl]; omega),
    char_ne_of_toNat (by rw [show ('t').toNat = 116 from rfl]; omega),
    char_ne_of_toNat (by rw [show ('f').toNat = 102 from rfl]; omega),
    char_ne_of_toNat (by rw [show ('"').toNat = 34 from rfl]; omega),
    char_ne_of_toNat (by rw [show ('[').toNat = 91 from rfl]; omega),
    char_ne_of_toNat (by rw [show ('\x7b').toNat = 123 from rfl]; omega),
    char_ne_of_toNat (by rw [show ('-').toNat = 45 from rfl]; omega)⟩

theorem printJson_head (j : Json) :
    ∃ c cs, printJson j = c :: cs ∧ jsonWs c = false ∧ c ≠ ']' ∧ c ≠ ',' ∧
      c ≠ '\x7d' := by
  cases j with
  | null =>
    exact ⟨'n', ['u', 'l', 'l'], rfl, by decide, by decide, by decide, by decide⟩
  | bool b =>
    cases b with
    | true =>
      exact ⟨'t', ['r', 'u', 'e'], rfl, by decide, by decide, by decide, by decide⟩
    | false =>
      exact ⟨'f', ['a', 'l', 's', 'e'], rfl, by decide, by decide, by decide,
        by decide⟩
  | num n =>
    rw [show printJson (.num n) = printInt n from by rw [printJson.eq_def]]
    by_cases hneg : n < 0
    · exact ⟨'-', natChars n.natAbs, by simp [printInt, hneg], by decide,
        by decide, by decide, by decide⟩
    · obtain ⟨c, cs, heq⟩ := List.exists_cons_of_ne_nil (natChars_ne_nil n.toNat)
      have hd := digit_facts
        (natChars_all_digits n.toNat c (heq ▸ List.mem_cons_self c cs))
      exact ⟨c, cs, by simp [printInt, hneg, heq], hd.1, hd.2.1, hd.2.2.1,
        hd.2.2.2.1⟩
  | str s =>
    exact ⟨'"', escapeChars s.data ++ ['"'], by rw [printJson.eq_def], by decide,
      by decide, by decide, by decide⟩
  | arr l =>
    exact ⟨'[', printElemsJ l ++ [']'], by rw [printJson.eq_def], by decide,
      by decide, by decide, by decide⟩
  | obj fs =>
    exact ⟨'\x7b', printFieldsJ fs ++ ['\x7d'], by rw [printJson.eq_def],
      by decide, by decide, by decide, by decide⟩

theorem headNotDigit_tail_arr (t : List Json) (rest : List Char) :
    headNotDigit (printTailJ t ++ ']' :: rest) = true := by
  cases t with
  | nil => rfl
  | cons h2 t2 =>
    rw [printTailJ.eq_def]
    rfl

theorem headNotDigit_tail_obj (t : List (String × Json)) (rest : List Char) :
    headNotDigit (printFTailJ t ++ '\x7d' :: rest) = true := by
  cases t with
  | nil => rfl
  | cons h2 t2 =>
    rw [printFTailJ.eq_def]
    obtain ⟨k, v⟩ := h2
    rfl

theorem parse_print_bundle (N : Nat) :
    (∀ j rest, (printJson j).length ≤ N → headNotDigit rest = true →
      parseVal N (printJson j ++ rest) = some (j, rest)) ∧
    (∀ l rest, (printElemsJ l).length < N →
      parseElems N (printElemsJ l ++ ']' :: rest) = some (l, rest)) ∧
    (∀ l rest, (printTailJ l).length < N →
      parseElemsTail N (printTailJ l ++ ']' :: rest) = some (l, rest)) ∧
    (∀ fs rest, (printFieldsJ fs).length < N →
      parseFields N (printFieldsJ fs ++ '\x7d' :: rest) = some (fs, rest)) ∧
    (∀ fs rest, (printFTailJ fs).length < N →
      parseFieldsTail N (printFTailJ fs ++ '\x7d' :: rest) = some (fs, rest)) := by
  induction N using Nat.strong_induction_on with
  | _ N IH =>
    refine ⟨?_, ?_, ?_, ?_, ?_⟩
    · -- parseVal
      intro j rest hlen hrest
      obtain ⟨c0, cs0, hpr, -, -, -, -⟩ := printJson_head j
      have hNpos : 1 ≤ N := by
        rw [hpr] at hlen
        simp at hlen
        omega
      obtain ⟨f, rfl⟩ : ∃ f, N = f + 1 := ⟨N - 1, by omega⟩
      clear hpr hNpos
      cases j with
      | null =>
        rw [show printJson .null = ['n', 'u', 'l', 'l'] from rfl]
        simp only [List.cons_append, List.nil_append]
        rw [parseVal.eq_def]
        simp only [show skipWs ('n' :: 'u' :: 'l' :: 'l' :: rest) =
            'n' :: 'u' :: 'l' :: 'l' :: rest from skipWs_cons (by decide)]
        simp
      | bool b =>
        cases b with
        | true =>
          rw [show printJson (.bool true) = ['t', 'r', 'u', 'e'] from rfl]
          simp only [List.cons_append, List.nil_append]
          rw [parseVal.eq_def]
          simp only [show skipWs ('t' :: 'r' :: 'u' :: 'e' :: rest) =
              't' :: 'r' :: 'u' :: 'e' :: rest from skipWs_cons (by decide)]
          simp
        | false =>
          rw [show printJson (.bool false) = ['f', 'a', 'l', 's', 'e'] from rfl]
          simp only [List.cons_append, List.nil_append]
          rw [parseVal.eq_def]
          simp only [show skipWs ('f' :: 'a' :: 'l' :: 's' :: 'e' :: rest) =
              'f' :: 'a' :: 'l' :: 's' :: 'e' :: rest from skipWs_cons (by decide)]
          simp
      | num n =>
        have hnum := parseNum_printInt n rest hrest
        rw [show printJson (.num n) = printInt n from by rw [printJson.eq_def]]
        by_cases hneg : n < 0
        · rw [show printInt n = '-' :: natChars n.natAbs from by
            simp [printInt, hneg]] at hnum ⊢
          simp only [List.cons_append] at hnum ⊢
          rw [parseVal.eq_def]
          simp only [show skipWs ('-' :: (natChars n.natAbs ++ rest)) =
              '-' :: (natChars n.natAbs ++ rest) from skipWs_cons (by decide)]
          simp only [show (('-' : Char) = 'n') = False from by simp,
            show (('-' : Char) = 't') = False from by simp,
            show (('-' : Char) = 'f') = False from by simp,
            show (('-' : Char) = '"') = False from by simp,
            show (('-' : Char) = '[') = False from by simp,
            show (('-' : Char) = '\x7b') = False from by simp,
            if_false, ite_false]
          exact hnum
        · obtain ⟨c, cs, heq⟩ :=
            List.exists_cons_of_ne_nil (natChars_ne_nil n.toNat)
          have hd := digit_facts
            (natChars_all_digits n.toNat c (heq ▸ List.mem_cons_self c cs))
          rw [show printInt n = natChars n.toNat from by simp [printInt, hneg],
            heq] at hnum ⊢
          simp only [List.cons_append] at hnum ⊢
          rw [parseVal.eq_def]
          simp only [show skipWs (c :: (cs ++ rest)) = c :: (cs ++ rest) from
            skipWs_cons hd.1]
          rw [if_neg hd.2.2.2.2.1, if_neg hd.2.2.2.2.2.1,
            if_neg hd.2.2.2.2.2.2.1, if_neg hd.2.2.2.2.2.2.2.1,
            if_neg hd.2.2.2.2.2.2.2.2.1, if_neg hd.2.2.2.2.2.2.2.2.2.1]
          exact hnum
      | str s =>
        rw [show printJson (.str s) = '"' :: (escapeChars s.data ++ ['"']) from by
          rw [printJson.eq_def]]
        simp only [List.cons_append, List.append_assoc, List.singleton_append,
          List.nil_append]
        rw [parseVal.eq_def]
        simp only [show skipWs ('"' :: (escapeChars s.data ++ '"' :: rest)) =
            '"' :: (escapeChars s.data ++ '"' :: rest) from skipWs_cons (by decide)]
        simp +decide [parseStrChars_escape, show String.mk s.data = s from rfl]
      | arr l =>
        rw [show printJson (.arr l) = '[' :: (printElemsJ l ++ [']']) from by
          rw [printJson.eq_def]] at hlen ⊢
        simp only [List.cons_append, List.append_assoc, List.singleton_append,
          List.nil_append]
        rw [parseVal.eq_def]
        simp only [show skipWs ('[' :: (printElemsJ l ++ ']' :: rest)) =
            '[' :: (printElemsJ l ++ ']' :: rest) from skipWs_cons (by decide)]
        have hlen2 : (printElemsJ l).length < f := by
          simp at hlen
          omega
        have helems := (IH f (by omega)).2.1 l rest hlen2
        simp +decide [helems]
      | obj fs =>
        rw [show printJson (.obj fs) = '\x7b' :: (printFieldsJ fs ++ ['\x7d']) from by
          rw [printJson.eq_def]] at hlen ⊢
        simp only [List.cons_append, List.append_assoc, List.singleton_append,
          List.nil_append]
        rw [parseVal.eq_def]
        simp only [show skipWs ('\x7b' :: (printFieldsJ fs ++ '\x7d' :: rest)) =
            '\x7b' :: (printFieldsJ fs ++ '\x7d' :: rest) from skipWs_cons (by decide)]
        have hlen2 : (printFieldsJ fs).length < f := by
          simp at hlen
          omega
        have hfields := (IH f (by omega)).2.2.2.1 fs rest hlen2
        simp +decide [hfields]
    · -- parseElems
      intro l rest hlen
      cases l with
      | nil =>
        rw [show printElemsJ ([] : List Json) = [] from rfl]
        simp only [List.nil_append]
        rw [parseElems.eq_def]
        simp only [show skipWs (']' :: rest) = ']' :: rest from skipWs_cons (by decide)]
        simp
      | cons h t =>
        obtain ⟨c, cs, hpr, hws, hne1, -, -⟩ := printJson_head h
        rw [show printElemsJ (h :: t) = printJson h ++ printTailJ t from by
          rw [printElemsJ.eq_def]] at hlen ⊢
        rw [List.length_append] at hlen
        have hcl : 1 ≤ (printJson h).length := by rw [hpr]; simp
        obtain ⟨f, rfl⟩ : ∃ f, N = f + 1 := ⟨N - 1, by omega⟩
        simp only [List.append_assoc]
        have hval := (IH f (by omega)).1 h (printTailJ t ++ ']' :: rest)
          (by omega) (headNotDigit_tail_arr t rest)
        have htail := (IH f (by omega)).2.2.1 t rest (by omega)
        rw [hpr, List.cons_append] at hval ⊢
        rw [parseElems.eq_def]
        simp only [show skipWs (c :: (cs ++ (printTailJ t ++ ']' :: rest))) =
            c :: (cs ++ (printTailJ t ++ ']' :: rest)) from skipWs_cons hws]
        simp +decide [hne1, hval, htail]
    · -- parseElemsTail
      intro l rest hlen
      cases l with
      | nil =>
        rw [show printTailJ ([] : List Json) = [] from rfl]
        simp only [List.nil_append]
        rw [parseElemsTail.eq_def]
        simp only [show skipWs (']' :: rest) = ']' :: rest from skipWs_cons (by decide)]
        simp
      | cons h t =>
        rw [show printTailJ (h :: t) = ',' :: (printJson h ++ printTailJ t) from by
          rw [printTailJ.eq_def]] at hlen ⊢
        simp only [List.length_cons, List.length_append] at hlen
        obtain ⟨f, rfl⟩ : ∃ f, N = f + 1 := ⟨N - 1, by omega⟩
        simp only [List.cons_append, List.append_assoc]
        have hval := (IH f (by omega)).1 h (printTailJ t ++ ']' :: rest)
          (by omega) (headNotDigit_tail_arr t rest)
        have htail := (IH f (by omega)).2.2.1 t rest (by omega)
        rw [parseElemsTail.eq_def]
        simp only [show skipWs (',' :: (printJson h ++ (printTailJ t ++ ']' :: rest))) =
            ',' :: (printJson h ++ (printTailJ t ++ ']' :: rest)) from
          skipWs_cons (by decide)]
        simp +decide [hval, htail]
    · -- parseFields
      intro fs rest hlen
      cases fs with
      | nil =>
        rw [show printFieldsJ ([] : List (String × Json)) = [] from rfl]
        simp only [List.nil_append]
        rw [parseFields.eq_def]
        simp only [show skipWs ('\x7d' :: rest) = '\x7d' :: rest from skipWs_cons (by decide)]
        simp
      | cons kv t =>
        obtain ⟨k, v⟩ := kv
        rw [show printFieldsJ ((k, v) :: t) =
            '"' :: (escapeChars k.data ++ '"' :: ':' :: printJson v) ++
              printFTailJ t from by rw [printFieldsJ.eq_def]] at hlen ⊢
        simp only [List.cons_append, List.append_assoc, List.length_append,
          List.length_cons] at hlen ⊢
        obtain ⟨f, rfl⟩ : ∃ f, N = f + 1 := ⟨N - 1, by omega⟩
        have hval := (IH f (by omega)).1 v (printFTailJ t ++ '\x7d' :: rest)
          (by omega) (headNotDigit_tail_obj t rest)
        have hftail := (IH f (by omega)).2.2.2.2 t rest (by omega)
        have hkey := parseStrChars_escape k.data
          (':' :: (printJson v ++ (printFTailJ t ++ '\x7d' :: rest)))
        rw [parseFields.eq_def]
        simp only [show skipWs ('"' :: (escapeChars k.data ++ '"' :: ':' ::
            (printJson v ++ (printFTailJ t ++ '\x7d' :: rest)))) =
            '"' :: (escapeChars k.data ++ '"' :: ':' ::
            (printJson v ++ (printFTailJ t ++ '\x7d' :: rest))) from
          skipWs_cons (by decide)]
        simp +decide [hkey, hval, hftail, show String.mk k.data = k from rfl,
          show skipWs (':' :: (printJson v ++ (printFTailJ t ++ '\x7d' :: rest))) =
            ':' :: (printJson v ++ (printFTailJ t ++ '\x7d' :: rest)) from
          skipWs_cons (by decide)]
    · -- parseFieldsTail
      intro fs rest hlen
      cases fs with
      | nil =>
        rw [show printFTailJ ([] : List (String × Json)) = [] from rfl]
        simp only [List.nil_append]
        rw [parseFieldsTail.eq_def]
        simp only [show skipWs ('\x7d' :: rest) = '\x7d' :: rest from skipWs_cons (by decide)]
        simp
      | cons kv t =>
        obtain ⟨k, v⟩ := kv
        rw [show printFTailJ ((k, v) :: t) =
            ',' :: ('"' :: (escapeChars k.data ++ '"' :: ':' :: printJson v) ++
              printFTailJ t) from by rw [printFTailJ.eq_def]] at hlen ⊢
        simp only [List.cons_append, List.append_assoc, List.length_append,
          List.length_cons] at hlen ⊢
        obtain ⟨f, rfl⟩ : ∃ f, N = f + 1 := ⟨N - 1, by omega⟩
        have hval := (IH f (by omega)).1 v (printFTailJ t ++ '\x7d' :: rest)
          (by omega) (headNotDigit_tail_obj t rest)
        have hftail := (IH f (by omega)).2.2.2.2 t rest (by omega)
        have hkey := parseStrChars_escape k.data
          (':' :: (printJson v ++ (printFTailJ t ++ '\x7d' :: rest)))
        rw [parseFieldsTail.eq_def]
        simp only [show skipWs (',' :: ('"' :: (escapeChars k.data ++ '"' :: ':' ::
            (printJson v ++ (printFTailJ t ++ '\x7d' :: rest))))) =
            ',' :: ('"' :: (escapeChars k.data ++ '"' :: ':' ::
            (printJson v ++ (printFTailJ t ++ '\x7d' :: rest)))) from
          skipWs_cons (by decide)]
        simp +decide [hkey, hval, hftail, show String.mk k.data = k from rfl,
          show skipWs ('"' :: (escapeChars k.data ++ '"' :: ':' ::
            (printJson v ++ (printFTailJ t ++ '\x7d' :: rest)))) =
            '"' :: (escapeChars k.data ++ '"' :: ':' ::
            (printJson v ++ (printFTailJ t ++ '\x7d' :: rest))) from
          skipWs_cons (by decide),
          show skipWs (':' :: (printJson v ++ (printFTailJ t ++ '\x7d' :: rest))) =
            ':' :: (printJson v ++ (printFTailJ t ++ '\x7d' :: rest)) from
          skipWs_cons (by decide)]

theorem jsonParse_stringify (j : Json) : jsonParse (stringify j) = some j := by
  unfold jsonParse stringify
  rw [show (String.mk (printJson j)).length = (printJson j).length from rfl]
  rw [show (String.mk (printJson j)).data = printJson j from rfl]
  have h := (parse_print_bundle ((printJson j).length + 1)).1 j [] (by omega) rfl
  rw [List.append_nil] at h
  rw [h]
  rfl

theorem stringify_ne_empty (j : Json) : stringify j ≠ "" := by
  obtain ⟨c, cs, hpr, -, -, -, -⟩ := printJson_head j
  intro h
  have h2 : (stringify j).data = [] := by rw [h]
  rw [show (stringify j).data = printJson j from rfl, hpr] at h2
  exact List.noConfusion h2

theorem jsonParse_empty : jsonParse "" = none := rfl

theorem encodeItem_injective : Function.Injective encodeItem := by
  intro a b h
  cases a with
  | mk aid atext acomp =>
    cases b with
    | mk bid btext bcomp =>
      simp [encodeItem] at h
      obtain ⟨h1, h2, h3⟩ := h
      simp_all

theorem encodeTodos_injective (c1 c2 : List Item)
    (h : encodeTodos c1 = encodeTodos c2) : c1 = c2 := by
  unfold encodeTodos at h
  injection h with h2
  exact List.map_injective_iff.mpr encodeItem_injective h2

theorem toggle_of_forall_ne {todos : List Item} {i : Nat}
    (h : ∀ t ∈ todos, t.id ≠ i) : handleToggleCompleted i todos = todos := by
  unfold handleToggleCompleted
  rw [List.map_congr_left (fun t ht => if_neg (h t ht))]
  exact List.map_id' todos

theorem nodup_middle_ids {pre post : List Item} {t : Item}
    (hnd : ((pre ++ t :: post).map Item.id).Nodup) :
    (∀ x ∈ pre, x.id ≠ t.id) ∧ ∀ x ∈ post, x.id ≠ t.id := by
  rw [List.map_append, List.map_cons] at hnd
  have h2 := (List.nodup_cons.mp (List.nodup_middle.mp hnd)).1
  rw [List.mem_append] at h2
  push_neg at h2
  constructor
  · intro x hx he
    exact h2.1 (he ▸ List.mem_map_of_mem Item.id hx)
  · intro x hx he
    exact h2.2 (he ▸ List.mem_map_of_mem Item.id hx)

theorem toggle_middle {pre post : List Item} {t : Item} {i : Nat}
    (hnd : (((pre ++ t :: post).map Item.id)).Nodup) (ht : t.id = i) :
    handleToggleCompleted i (pre ++ t :: post) =
      pre ++ { t with completed := !t.completed } :: post := by
  obtain ⟨h1, h2⟩ := nodup_middle_ids hnd
  unfold handleToggleCompleted
  rw [List.map_append, List.map_cons, if_pos ht]
  rw [List.map_congr_left (fun x hx => if_neg (ht ▸ h1 x hx))]
  rw [List.map_congr_left (fun x hx => if_neg (ht ▸ h2 x hx))]
  rw [List.map_id', List.map_id']

theorem remove_of_forall_ne {todos : List Item} {i : Nat}
    (h : ∀ t ∈ todos, t.id ≠ i) : handleDeleteTodo i todos = todos := by
  unfold handleDeleteTodo
  rw [List.filter_eq_self]
  intro t ht
  simpa using h t ht

theorem not_mem_remove {todos : List Item} {i : Nat} :
    ∀ t ∈ handleDeleteTodo i todos, t.id ≠ i := by
  intro t ht
  have := (List.mem_filter.mp ht).2
  simpa using this

theorem length_remove_of_mem {todos : List Item} {i : Nat}
    (hnd : (todos.map Item.id).Nodup) (hmem : ∃ t ∈ todos, t.id = i) :
    (handleDeleteTodo i todos).length + 1 = todos.length := by
  induction todos with
  | nil => simp at hmem
  | cons t ts ih =>
    rw [List.map_cons, List.nodup_cons] at hnd
    by_cases h : t.id = i
    · have hts : handleDeleteTodo i ts = ts := by
        apply remove_of_forall_ne
        intro x hx he
        exact hnd.1 (h ▸ he ▸ List.mem_map_of_mem Item.id hx)
      have : handleDeleteTodo i (t :: ts) = handleDeleteTodo i ts := by
        simp [handleDeleteTodo, List.filter_cons, h]
      rw [this, hts]
      simp
    · have hstep : handleDeleteTodo i (t :: ts) = t :: handleDeleteTodo i ts := by
        simp [handleDeleteTodo, List.filter_cons, h]
      have hmem2 : ∃ x ∈ ts, x.id = i := by
        obtain ⟨x, hx, hxi⟩ := hmem
        rcases List.mem_cons.mp hx with rfl | hx2
        · exact absurd hxi h
        · exact ⟨x, hx2, hxi⟩
      rw [hstep]
      simp only [List.length_cons]
      rw [ih hnd.2 hmem2]

theorem addAll_eq (calls : List (Nat × String)) (todos : List Item) :
    addAll calls todos =
      todos ++ (calls.filter fun p => jsTrim p.2 != "").map
        (fun p => ⟨p.1, jsTrim p.2, false⟩) := by
  induction calls generalizing todos with
  | nil => simp [addAll]
  | cons p ps ih =>
    have hstep : addAll (p :: ps) todos =
        addAll ps ((handleAddTodo p.1 (todos, p.2)).1) := rfl
    rw [hstep]
    by_cases h : jsTrim p.2 = ""
    · rw [show (handleAddTodo p.1 (todos, p.2)).1 = todos from by
        simp [handleAddTodo, h]]
      rw [ih]
      simp [List.filter_cons, h]
    · rw [show (handleAddTodo p.1 (todos, p.2)).1 =
          todos ++ [⟨p.1, jsTrim p.2, false⟩] from by simp [handleAddTodo, h]]
      rw [ih]
      simp [List.filter_cons, h]

theorem toggle_pointwise_involutive (i : Nat) (t : Item) :
    (fun todo : Item =>
      if todo.id = i then { todo with completed := !todo.completed } else todo)
    ((fun todo : Item =>
      if todo.id = i then { todo with completed := !todo.completed } else todo) t)
    = t := by
  cases t with
  | mk id text completed =>
    by_cases h : id = i <;> simp [h, Bool.not_not]

/-- Claim C7: toggling the same id twice in a row restores the collection to
its original value (shown for every collection and every id, which covers in
particular the ids present in the collection). -/
theorem toggle_twice_id (todos : List Item) (i : Nat) :
    handleToggleCompleted i (handleToggleCompleted i todos) = todos := by
  unfold handleToggleCompleted
  rw [List.map_map]
  simp only [Function.comp_def]
  rw [List.map_congr_left (fun t _ => toggle_pointwise_involutive i t)]
  exact List.map_id' todos

/-- Claim C2 is false of the code: `id` is `Date.now()`, so two adds during
the same millisecond (`Date.now()` returning 100 twice) produce two items
with the same id, even though the comment at line 32 of `src/index.js`
promises "a unique ID".  This theorem evaluates the store on that failing
input: the reachable state holds two items with id 100, and its id list is
not duplicate-free. -/
theorem add_same_millisecond_duplicates_id :
    run [Op.add 100 "a", Op.add 100 "b"] =
      [⟨100, "a", false⟩, ⟨100, "b", false⟩] ∧
    ¬ ((run [Op.add 100 "a", Op.add 100 "b"]).map Item.id).Nodup := by
  constructor
  · decide
  · decide

/-- Claim C3: toggling an id absent from the collection changes nothing, and
under the data-model invariant that ids are duplicate-free, toggling an id
present in the collection flips `completed` on exactly the matching item and
leaves every other item (its position included) completely unchanged. -/
theorem toggle_spec (todos : List Item) (i : Nat) :
    ((∀ t ∈ todos, t.id ≠ i) → handleToggleCompleted i todos = todos) ∧
    ((todos.map Item.id).Nodup →
      ∀ pre t post, todos = pre ++ t :: post → t.id = i →
        handleToggleCompleted i todos =
          pre ++ { t with completed := !t.completed } :: post) := by
  refine ⟨fun h => toggle_of_forall_ne h, ?_⟩
  intro hnd pre t post heq hti
  subst heq
  exact toggle_middle hnd hti

theorem toggle_spec_witness :
    handleToggleCompleted 2 [⟨1, "a", false⟩, ⟨2, "b", true⟩] =
      [⟨1, "a", false⟩, ⟨2, "b", false⟩] ∧
    handleToggleCompleted 7 [⟨1, "a", false⟩, ⟨2, "b", true⟩] =
      [⟨1, "a", false⟩, ⟨2, "b", true⟩] :=
  ⟨(toggle_spec [⟨1, "a", false⟩, ⟨2, "b", true⟩] 2).2 (by decide)
      [⟨1, "a", false⟩] ⟨2, "b", true⟩ [] rfl rfl,
    (toggle_spec [⟨1, "a", false⟩, ⟨2, "b", true⟩] 7).1 (by decide)⟩

/-- Claim C4: `handleAddTodo` trims the input; a blank (empty or
white-space-only) input leaves the collection unchanged and signals nothing;
otherwise exactly one item with the trimmed text and `completed = false` is
appended at the end; consequently, over any sequence of adds the collection
grows by exactly the non-blank submissions, in call order. -/
theorem add_spec (now : Nat) (v : String) (todos : List Item) :
    (jsTrim v = "" → handleAddTodo now (todos, v) = (todos, v)) ∧
    (jsTrim v ≠ "" →
      handleAddTodo now (todos, v) = (todos ++ [⟨now, jsTrim v, false⟩], "")) ∧
    (∀ calls : List (Nat × String),
      addAll calls todos =
        todos ++ (calls.filter fun p => jsTrim p.2 != "").map
          (fun p => ⟨p.1, jsTrim p.2, false⟩)) ∧
    (∀ calls : List (Nat × String),
      (addAll calls todos).length =
        todos.length + calls.countP fun p => jsTrim p.2 != "") := by
  refine ⟨fun h => by simp [handleAddTodo, h], fun h => by simp [handleAddTodo, h],
    fun calls => addAll_eq calls todos, fun calls => ?_⟩
  rw [addAll_eq calls todos]
  simp [List.countP_eq_length_filter]

theorem add_spec_witness :
    handleAddTodo 7 ([], "   ") = ([], "   ") ∧
    handleAddTodo 7 ([], " buy milk ") = ([⟨7, jsTrim " buy milk ", false⟩], "") :=
  ⟨(add_spec 7 "   " []).1 (by decide), (add_spec 7 " buy milk " []).2.1 (by decide)⟩

/-- Claim C6: removing an id decreases the length by exactly one when the id
is present (under the data-model invariant that ids are duplicate-free), by
zero when it is absent, and afterwards no item with that id remains. -/
theorem remove_spec (todos : List Item) (i : Nat) :
    ((todos.map Item.id).Nodup → (∃ t ∈ todos, t.id = i) →
      (handleDeleteTodo i todos).length + 1 = todos.length) ∧
    ((∀ t ∈ todos, t.id ≠ i) → handleDeleteTodo i todos = todos) ∧
    (∀ t ∈ handleDeleteTodo i todos, t.id ≠ i) :=
  ⟨fun hnd hmem => length_remove_of_mem hnd hmem,
    fun h => remove_of_forall_ne h,
    not_mem_remove⟩

theorem remove_spec_witness :
    (handleDeleteTodo 2 [⟨1, "a", false⟩, ⟨2, "b", true⟩]).length + 1 =
      ([⟨1, "a", false⟩, ⟨2, "b", true⟩] : List Item).length ∧
    handleDeleteTodo 9 [⟨1, "a", false⟩, ⟨2, "b", true⟩] =
      [⟨1, "a", false⟩, ⟨2, "b", true⟩] :=
  ⟨(remove_spec [⟨1, "a", false⟩, ⟨2, "b", true⟩] 2).1 (by decide)
      ⟨⟨2, "b", true⟩, by decide, rfl⟩,
    (remove_spec [⟨1, "a", false⟩, ⟨2, "b", true⟩] 9).2.1 (by decide)⟩

/-- Claim C9 (implicit): `handleDeleteTodo` is a pure filter — the result is
an order-preserving sub-sequence of the original, no item with the removed id
survives (all duplicates go, not just the first match), and every item with a
different id survives unchanged and with unchanged multiplicity. -/
theorem remove_filters_all (todos : List Item) (i : Nat) :
    (handleDeleteTodo i todos).Sublist todos ∧
    (∀ t ∈ handleDeleteTodo i todos, t.id ≠ i) ∧
    (∀ t : Item, t.id ≠ i →
      (handleDeleteTodo i todos).count t = todos.count t) := by
  refine ⟨List.filter_sublist todos, not_mem_remove, fun t ht => ?_⟩
  exact List.count_filter (by simpa using ht)

theorem remove_filters_all_witness :
    (handleDeleteTodo 1 [⟨1, "a", false⟩, ⟨2, "b", true⟩, ⟨1, "c", false⟩]).Sublist
      [⟨1, "a", false⟩, ⟨2, "b", true⟩, ⟨1, "c", false⟩] ∧
    (handleDeleteTodo 1 [⟨1, "a", false⟩, ⟨2, "b", true⟩, ⟨1, "c", false⟩]).count
      ⟨2, "b", true⟩ =
      ([⟨1, "a", false⟩, ⟨2, "b", true⟩, ⟨1, "c", false⟩] : List Item).count
        ⟨2, "b", true⟩ :=
  ⟨(remove_filters_all [⟨1, "a", false⟩, ⟨2, "b", true⟩, ⟨1, "c", false⟩] 1).1,
    (remove_filters_all [⟨1, "a", false⟩, ⟨2, "b", true⟩, ⟨1, "c", false⟩] 1).2.2
      ⟨2, "b", true⟩ (by decide)⟩

/-- Claim C8 is false of the code in its first half: the `useEffect` at lines
22-25 calls `localStorage.setItem` with no try/catch, so a storage failure
(e.g. quota exceeded) escapes as an uncaught exception instead of being
reported as a recoverable error.  This counterexample exhibits the uncaught
error on a concrete mutation (adding "a" to the empty collection) with the
write failing. -/
theorem persist_failure_uncaught :
    (stepWithPersist (fun ts => (handleAddTodo 1 (ts, "a")).1) [] true).2 =
      Except.error JsError.quotaExceeded := rfl

/-- Claim C8 as amended: when the durable write after a mutation fails, the
exception propagates uncaught out of the persistence effect (the code
installs no handler), but the failure never aborts or undoes the mutation
already applied to the in-memory collection — the committed in-memory state
after a failed persist is identical to the state after a successful one,
and a successful persist stores the new encoding. -/
theorem persist_failure_keeps_memory (f : List Item → List Item)
    (todos : List Item) :
    (stepWithPersist f todos true).1 = (stepWithPersist f todos false).1 ∧
    (stepWithPersist f todos true).2 = Except.error JsError.quotaExceeded ∧
    (stepWithPersist f todos false).2 = Except.ok (saveTodos (f todos)) :=
  ⟨rfl, rfl, rfl⟩

/-- Claim C1 is false of the code: the initializer runs
`JSON.parse(savedTodos)` with no try/catch, so a stored string that is
present (truthy) but not valid JSON makes initialization throw a
`SyntaxError` instead of degrading to the empty collection.  Concrete
counterexample: the stored string `"x"`. -/
theorem appInit_malformed_raises :
    appInit (some "x") = Except.error JsError.syntaxError := rfl

/-- Claim C1 as amended: at startup the raw stored encoding is read; if it is
absent, or is the empty string (falsy in the JavaScript conditional), the
collection starts empty; if it decodes as JSON, the decoded value becomes the
initial state; but if a non-empty stored string fails to decode, the decode
error propagates to the caller instead of yielding an empty collection. -/
theorem appInit_spec (saved : Option String) :
    (saved = none → appInit saved = Except.ok (Json.arr [])) ∧
    (saved = some "" → appInit saved = Except.ok (Json.arr [])) ∧
    (∀ s v, saved = some s → jsonParse s = some v →
      appInit saved = Except.ok v) ∧
    (∀ s, saved = some s → s ≠ "" → jsonParse s = none →
      appInit saved = Except.error JsError.syntaxError) := by
  refine ⟨?_, ?_, ?_, ?_⟩
  · rintro rfl
    rfl
  · rintro rfl
    rfl
  · rintro s v rfl hp
    have hne : s ≠ "" := by
      rintro rfl
      rw [jsonParse_empty] at hp
      exact Option.noConfusion hp
    simp [appInit, hne, hp]
  · rintro s rfl hne hp
    simp [appInit, hne, hp]

theorem appInit_spec_witness :
    appInit none = Except.ok (Json.arr []) ∧
    appInit (some "x") = Except.error JsError.syntaxError :=
  ⟨(appInit_spec none).1 rfl,
    (appInit_spec (some "x")).2.2.2 "x" rfl (by decide) rfl⟩

/-- Claim C5: serializing the collection the way the save effect does and
decoding it the way a fresh start does reproduces the collection exactly —
the fresh state is the encoding of the original collection, the encoding
determines the collection uniquely (same ids, texts, completed flags, same
order), and the empty collection encodes as the empty array `"[]"`. -/
theorem save_load_roundtrip (todos : List Item) :
    appInit (some (saveTodos todos)) = Except.ok (encodeTodos todos) ∧
    (∀ todos2, encodeTodos todos = encodeTodos todos2 → todos = todos2) ∧
    saveTodos ([] : List Item) = "[]" := by
  refine ⟨?_, fun t2 h => encodeTodos_injective todos t2 h, rfl⟩
  have hne := stringify_ne_empty (encodeTodos todos)
  have hp := jsonParse_stringify (encodeTodos todos)
  simp [appInit, saveTodos, hne, hp]

theorem save_load_roundtrip_witness :
    appInit (some (saveTodos [⟨5, "a", true⟩])) =
      Except.ok (encodeTodos [⟨5, "a", true⟩]) ∧
    ([⟨5, "a", true⟩] : List Item) = [⟨5, "a", true⟩] :=
  ⟨(save_load_roundtrip [⟨5, "a", true⟩]).1,
    (save_load_roundtrip [⟨5, "a", true⟩]).2.1 [⟨5, "a", true⟩] rfl⟩

/-- Claim C10 (implicit): the initializer performs no validation of the
decoded structure — for every stored string that decodes as JSON, whatever
value it decodes to, of any shape, becomes the in-memory state verbatim. -/
theorem decoded_value_verbatim (s : String) (v : Json)
    (h : jsonParse s = some v) : appInit (some s) = Except.ok v := by
  have hne : s ≠ "" := by
    rintro rfl
    rw [jsonParse_empty] at h
    exact Option.noConfusion h
  simp [appInit, hne, h]

theorem decoded_value_verbatim_witness :
    appInit (some "\"hi\"") = Except.ok (Json.str "hi") :=
  decoded_value_verbatim "\"hi\"" (Json.str "hi") rfl

end TodoApp
